import Mathlib

/-!
Shallow embedding of the DeCoin node (blockchain.py, consensus.py,
transactions.py, network.py) and proofs about its chain store, mempool,
consensus selection and peer-to-peer admission paths.

Modelling conventions, stated once:
* Python floats (amounts, fees, timestamps, weights) are modelled as exact
  rationals.  None of the verified properties depends on floating-point
  rounding.
* hashlib.sha256(...).hexdigest() is external library code; it is modelled by
  an executable stand-in producing 64 lowercase hex characters from a rolling
  fold over the input characters.  Every property proved below holds for the
  program-level structure of hashing (which fields are hashed, how digests are
  combined and compared) and does not rely on arithmetic properties of SHA-256
  itself.  json.dumps is likewise modelled by an executable canonical
  serializer; sha256(b'') is modelled as the digest of the empty string.
* Python dictionaries are modelled as insertion-ordered association lists;
  metadata values are modelled by the flat JSON value shapes the program
  actually stores in transaction metadata (numbers, strings, booleans, null,
  lists of strings, string-to-string maps).
* Python object equality on dataclasses (used by `tx not in block.transactions`
  and `list.remove`) is modelled by structural equality of the corresponding
  structures.
* time.time() is passed explicitly as an argument named now; Python's unbounded
  while-loops (mining) take an explicit fuel and return Option.
* list.sort(key=..., reverse=True) (a stable sort) is modelled by
  List.insertionSort with the corresponding total preorder; insertionSort is
  stable in the same sense.
-/

attribute [local semireducible] Rat.ofScientific Rat.mul Rat.inv Rat.add Rat.sub

set_option maxRecDepth 100000

/-! ## JSON value model -/

/-- Flat JSON values as stored in transaction metadata by the program:
numbers, strings, booleans, null, lists of strings (validator/sender lists)
and string-to-string maps (multisig signature maps). -/
inductive JVal where
  | num (q : ℚ)
  | str (s : String)
  | jbool (b : Bool)
  | null
  | strList (xs : List String)
  | strMap (kvs : List (String × String))
deriving DecidableEq, Repr

/-- Metadata dictionaries: insertion-ordered association lists. -/
abbrev Metadata := List (String × JVal)

def metaLookup (m : Metadata) (k : String) : Option JVal :=
  (m.find? (fun kv => kv.1 == k)).map (·.2)

/-- Models metadata.get(k, d) for a numeric default and numeric uses. -/
def getNumD (m : Metadata) (k : String) (d : ℚ) : ℚ :=
  match metaLookup m k with
  | some (.num q) => q
  | _ => d

/-- Models metadata.get(k, d) for string-valued uses. -/
def getStrD (m : Metadata) (k : String) (d : String) : String :=
  match metaLookup m k with
  | some (.str s) => s
  | _ => d

/-- Models Python len() applied to a metadata value. -/
def jLen : JVal → ℕ
  | .str s => s.length
  | .strList xs => xs.length
  | .strMap kvs => kvs.length
  | _ => 0

/-- Serialization of a rational standing in for Python repr of a float in
json.dumps output. -/
def qJson (q : ℚ) : String :=
  if q.den = 1 then toString q.num ++ ".0" else toString q.num ++ "/" ++ toString q.den

def jsonStr (s : String) : String := "\"" ++ s ++ "\""

def joinComma : List String → String
  | [] => ""
  | [x] => x
  | x :: xs => x ++ ", " ++ joinComma xs

/-- Code-point lexicographic comparison of character lists, an executable
model of Python string comparison (and of the string order used by sorted
keys and sorted validator addresses). -/
def charListLe : List Char → List Char → Bool
  | [], _ => true
  | _ :: _, [] => false
  | a :: as, b :: bs => if a < b then true else if b < a then false else charListLe as bs

def strLe (a b : String) : Bool := charListLe a.data b.data

/-- Serialization of a JSON value; sortKeys mirrors json.dumps(..., sort_keys=True)
on the nested string maps. -/
def JVal.toJson (sortKeys : Bool) : JVal → String
  | .num q => qJson q
  | .str s => jsonStr s
  | .jbool b => if b then "true" else "false"
  | .null => "null"
  | .strList xs => "[" ++ joinComma (xs.map jsonStr) ++ "]"
  | .strMap kvs =>
      let kvs2 := if sortKeys then List.insertionSort (fun a b => strLe a.1 b.1 = true) kvs else kvs
      "\x7b" ++ joinComma (kvs2.map fun kv => jsonStr kv.1 ++ ": " ++ jsonStr kv.2) ++ "\x7d"

/-- Models json.dumps(metadata): insertion order, default separators. -/
def metaJson (m : Metadata) : String :=
  "\x7b" ++ joinComma (m.map fun kv => jsonStr kv.1 ++ ": " ++ kv.2.toJson false) ++ "\x7d"

/-- Models json.dumps(metadata, sort_keys=True) as used inside hashed payloads. -/
def metaJsonSorted (m : Metadata) : String :=
  "\x7b" ++ joinComma ((List.insertionSort (fun a b => strLe a.1 b.1 = true) m).map
    fun kv => jsonStr kv.1 ++ ": " ++ kv.2.toJson true) ++ "\x7d"

/-! ## Hash model -/

def hexDigit (n : ℕ) : Char := Char.ofNat (if n < 10 then 48 + n else 87 + n)

def hexPadLoop : ℕ → ℕ → List Char → List Char
  | 0, _, acc => acc
  | k + 1, n, acc => hexPadLoop k (n / 16) (hexDigit (n % 16) :: acc)

/-- 64-character lowercase hex rendering of a number below 2 to the 256. -/
def hex64 (n : ℕ) : String := String.mk (hexPadLoop 64 n [])

/-- Executable stand-in for hashlib.sha256(s.encode()).hexdigest(): a rolling
fold over the characters of s, rendered as 64 hex characters.  Only the
program-level structure of hashing is used by the proofs below. -/
def sha256hex (s : String) : String :=
  hex64 (s.data.foldl (fun a c => (a * 1048583 + c.toNat + 1) % 2 ^ 256) 57005)

/-- Models str.startswith('0' * d). -/
def startsWith0s (s : String) (d : ℕ) : Bool :=
  (List.replicate d '0').isPrefixOf s.data

/-! ## Transaction model (blockchain.py) -/

inductive TransactionType where
  | standard
  | smart_contract
  | multi_sig
  | time_locked
  | atomic_swap
  | data_storage
deriving DecidableEq, Repr

def TransactionType.value : TransactionType → String
  | .standard => "standard"
  | .smart_contract => "smart_contract"
  | .multi_sig => "multi_sig"
  | .time_locked => "time_locked"
  | .atomic_swap => "atomic_swap"
  | .data_storage => "data_storage"

structure Transaction where
  tx_type : TransactionType
  sender : String
  recipient : String
  amount : ℚ
  timestamp : ℚ
  metadata : Metadata
  signature : Option String
  tx_hash : String
deriving DecidableEq, Repr

/-- Canonical JSON payload hashed by Transaction.calculate_hash: the keys
amount, metadata, recipient, sender, timestamp, type in sorted order. -/
def txHashString (ty : TransactionType) (sender recipient : String)
    (amount timestamp : ℚ) (meta : Metadata) : String :=
  "\x7b" ++ jsonStr "amount" ++ ": " ++ qJson amount
  ++ ", " ++ jsonStr "metadata" ++ ": " ++ metaJsonSorted meta
  ++ ", " ++ jsonStr "recipient" ++ ": " ++ jsonStr recipient
  ++ ", " ++ jsonStr "sender" ++ ": " ++ jsonStr sender
  ++ ", " ++ jsonStr "timestamp" ++ ": " ++ qJson timestamp
  ++ ", " ++ jsonStr "type" ++ ": " ++ jsonStr ty.value
  ++ "\x7d"

def Transaction.calculate_hash (tx : Transaction) : String :=
  sha256hex (txHashString tx.tx_type tx.sender tx.recipient tx.amount tx.timestamp tx.metadata)

/-- Transaction construction as performed by the dataclass followed by
post-init, which fills tx_hash from calculate_hash when absent. -/
def mkTransaction (ty : TransactionType) (sender recipient : String)
    (amount timestamp : ℚ) (meta : Metadata) (sig : Option String) : Transaction :=
  let core : Transaction :=
    { tx_type := ty, sender := sender, recipient := recipient, amount := amount,
      timestamp := timestamp, metadata := meta, signature := sig, tx_hash := "" }
  { core with tx_hash := core.calculate_hash }

/-- TransactionBuilder.create_standard_transaction with explicit timestamp. -/
def create_standard_transaction (sender recipient : String) (amount fee timestamp : ℚ) : Transaction :=
  mkTransaction .standard sender recipient amount timestamp [("fee", .num fee)] none

/-! ## Block model (blockchain.py) -/

structure Block where
  index : ℕ
  timestamp : ℚ
  transactions : List Transaction
  previous_hash : String
  nonce : ℕ
  difficulty : ℕ
  merkle_root : String
  validator : Option String
  stake_weight : ℚ
  work_weight : ℚ
  block_hash : String
deriving DecidableEq, Repr

/-- One level of the Merkle loop: hash adjacent pairs of hex strings.  Called
only on even-length lists after padding; a leftover singleton is unreachable. -/
def merkleLevel : List String → List String
  | a :: b :: rest => sha256hex (a ++ b) :: merkleLevel rest
  | _ => []

/-- Padding step of the Merkle loop: duplicate the last hash when the count is odd. -/
def padEven (hs : List String) : List String :=
  if hs.length % 2 = 1 then hs ++ [hs.getLast?.getD ""] else hs

/-- The while-loop of calculate_merkle_root with explicit fuel; a fuel of
hs.length always suffices since every round at least halves the list. -/
def merkleRounds : ℕ → List String → String
  | _, [h] => h
  | f + 1, hs => merkleRounds f (merkleLevel (padEven hs))
  | 0, hs => hs.headD ""

def calcMerkleRootHashes (hs : List String) : String := merkleRounds hs.length hs

def Block.calculate_merkle_root (b : Block) : String :=
  if b.transactions = [] then sha256hex ""
  else calcMerkleRootHashes (b.transactions.map (·.tx_hash))

/-- Canonical JSON payload hashed by Block.calculate_hash: the header fields
(not the transactions) with keys in sorted order. -/
def blockHashString (b : Block) : String :=
  "\x7b" ++ jsonStr "difficulty" ++ ": " ++ toString b.difficulty
  ++ ", " ++ jsonStr "index" ++ ": " ++ toString b.index
  ++ ", " ++ jsonStr "merkle_root" ++ ": " ++ jsonStr b.merkle_root
  ++ ", " ++ jsonStr "nonce" ++ ": " ++ toString b.nonce
  ++ ", " ++ jsonStr "previous_hash" ++ ": " ++ jsonStr b.previous_hash
  ++ ", " ++ jsonStr "stake_weight" ++ ": " ++ qJson b.stake_weight
  ++ ", " ++ jsonStr "timestamp" ++ ": " ++ qJson b.timestamp
  ++ ", " ++ jsonStr "validator" ++ ": "
      ++ (match b.validator with | none => "null" | some v => jsonStr v)
  ++ ", " ++ jsonStr "work_weight" ++ ": " ++ qJson b.work_weight
  ++ "\x7d"

def Block.calculate_hash (b : Block) : String := sha256hex (blockHashString b)

/-- Block construction as performed by the dataclass followed by post-init,
which fills merkle_root and then block_hash when absent. -/
def mkBlock (index : ℕ) (timestamp : ℚ) (txs : List Transaction) (prev : String)
    (nonce difficulty : ℕ) (validator : Option String) (sw ww : ℚ) : Block :=
  let mr := if txs = [] then sha256hex "" else calcMerkleRootHashes (txs.map (·.tx_hash))
  let b : Block :=
    { index := index, timestamp := timestamp, transactions := txs, previous_hash := prev,
      nonce := nonce, difficulty := difficulty, merkle_root := mr, validator := validator,
      stake_weight := sw, work_weight := ww, block_hash := "" }
  { b with block_hash := b.calculate_hash }

/-- Block.mine_block: increment the nonce and rehash until the hash starts with
difficulty zeros; fuel bounds the unbounded Python loop. -/
def Block.mine_block (fuel : ℕ) (b : Block) (difficulty : ℕ) : Option Block :=
  match fuel with
  | 0 => if startsWith0s b.block_hash difficulty then some b else none
  | f + 1 =>
      if startsWith0s b.block_hash difficulty then some b
      else
        let b2 : Block := { b with nonce := b.nonce + 1 }
        Block.mine_block f { b2 with block_hash := b2.calculate_hash } difficulty

/-! ## Chain store (blockchain.py, class Blockchain) -/

structure Blockchain where
  chain : List Block
  pending_transactions : List Transaction
  difficulty : ℕ
deriving DecidableEq, Repr

/-- The synthetic transaction placed in the genesis block. -/
def genesisTransaction (t1 : ℚ) : Transaction :=
  mkTransaction .standard "genesis" "genesis" 0 t1 [("message", .str "DeCoin Genesis Block")] none

/-- Blockchain construction: create_genesis_block builds the genesis block and
mines it at the initial difficulty 4.  t1 and t2 are the two time.time() reads;
fuel bounds the mining loop. -/
def createBlockchain (t1 t2 : ℚ) (fuel : ℕ) : Option Blockchain :=
  let g := mkBlock 0 t2 [genesisTransaction t1] "0" 0 4 none 0 0
  (Block.mine_block fuel g 4).map (fun gb =>
    { chain := [gb], pending_transactions := [], difficulty := 4 })

/-- Models chain[-1]; the chain is non-empty in every state the program builds. -/
def Blockchain.get_latest_block (bc : Blockchain) : Option Block := bc.chain.getLast?

/-- Type-independent transaction validation of the chain store
(Blockchain.validate_transaction). -/
def Blockchain.validate_transaction (now : ℚ) (tx : Transaction) : Bool :=
  if tx.amount < 0 then false
  else if 1024 < (metaJson tx.metadata).length then false
  else if tx.tx_type = .time_locked then
    match metaLookup tx.metadata "unlock_time" with
    | some (.num u) => decide (now < u)
    | _ => false
  else true

def Blockchain.add_transaction (now : ℚ) (bc : Blockchain) (tx : Transaction) :
    Blockchain × Bool :=
  if Blockchain.validate_transaction now tx then
    ({ bc with pending_transactions := bc.pending_transactions ++ [tx] }, true)
  else (bc, false)

def Blockchain.create_block (now : ℚ) (bc : Blockchain) (validator : String)
    (stake_weight : ℚ) : Option Block :=
  if bc.pending_transactions = [] then none
  else
    match bc.chain.getLast? with
    | none => none
    | some tip =>
        some (mkBlock bc.chain.length now (bc.pending_transactions.take 100)
          tip.block_hash 0 bc.difficulty (some validator) stake_weight (1 - stake_weight))

def Blockchain.validate_block (now : ℚ) (bc : Blockchain) (b : Block) : Bool :=
  (b.index == bc.chain.length) &&
  (match bc.chain.getLast? with
   | some tip => b.previous_hash == tip.block_hash
   | none => false) &&
  (b.merkle_root == b.calculate_merkle_root) &&
  startsWith0s b.block_hash bc.difficulty &&
  b.transactions.all (fun tx => Blockchain.validate_transaction now tx)

def Blockchain.add_block (now : ℚ) (bc : Blockchain) (b : Block) : Blockchain × Bool :=
  if Blockchain.validate_block now bc b then
    ({ bc with
        chain := bc.chain ++ [b],
        pending_transactions :=
          bc.pending_transactions.filter (fun tx => decide (tx ∉ b.transactions)) }, true)
  else (bc, false)

def Blockchain.get_balance (bc : Blockchain) (address : String) : ℚ :=
  bc.chain.foldl (fun bal blk =>
    blk.transactions.foldl (fun acc tx =>
      let acc2 := if tx.sender == address then acc - tx.amount else acc
      if tx.recipient == address then acc2 + tx.amount else acc2) bal) 0

/-! ## Consensus (consensus.py, class HybridConsensus) -/

structure Validator where
  address : String
  stake : ℚ
  reputation : ℚ
  blocks_validated : ℕ
  last_validation_time : ℚ
  is_active : Bool
deriving DecidableEq, Repr

/-- HybridConsensus.register_validator over the registry modelled as an
insertion-ordered list of validators with distinct addresses. -/
def register_validator (validators : List Validator) (address : String) (stake : ℚ) :
    List Validator × Bool :=
  if stake < 1000 then (validators, false)
  else if validators.any (fun v => v.address == address) then
    (validators.map (fun v =>
      if v.address == address then { v with stake := v.stake + stake } else v), true)
  else
    (validators ++ [{ address := address, stake := stake, reputation := 1,
                      blocks_validated := 0, last_validation_time := 0, is_active := true }],
     true)

/-- HybridConsensus.select_validator: filter the active validators, sort them
by address (a stable sort, as in Python), and pick index chainLen mod count. -/
def select_validator (validators : List Validator) (chainLen : ℕ) : Option String :=
  let active := validators.filter (·.is_active)
  if active = [] then none
  else
    let sorted := List.insertionSort (fun a b => strLe a.address b.address = true) active
    (sorted[chainLen % sorted.length]?).map (·.address)

/-! ## Transaction pool (transactions.py, class TransactionPool) -/

structure TransactionPool where
  transactions : List Transaction
  max_size : ℕ
  transaction_index : List (String × Transaction)
deriving DecidableEq, Repr

def mkTransactionPool (max_size : ℕ) : TransactionPool :=
  { transactions := [], max_size := max_size, transaction_index := [] }

/-- Models x.metadata.get('fee', 0). -/
def feeOf (tx : Transaction) : ℚ := getNumD tx.metadata "fee" 0

/-- The fee-descending, stable sort applied after every pool insertion:
models transactions.sort(key=lambda x: x.metadata.get('fee', 0), reverse=True). -/
def sortByFeeDesc (txs : List Transaction) : List Transaction :=
  List.insertionSort (fun a b => feeOf b ≤ feeOf a) txs

def TransactionPool.add_transaction (p : TransactionPool) (tx : Transaction) :
    TransactionPool × Bool :=
  if p.max_size ≤ p.transactions.length then (p, false)
  else if (p.transaction_index.find? (fun kv => kv.1 == tx.tx_hash)).isSome then (p, false)
  else
    ({ transactions := sortByFeeDesc (p.transactions ++ [tx]),
       max_size := p.max_size,
       transaction_index := p.transaction_index ++ [(tx.tx_hash, tx)] }, true)

def TransactionPool.remove_transaction (p : TransactionPool) (tx_hash : String) :
    TransactionPool × Option Transaction :=
  match p.transaction_index.find? (fun kv => kv.1 == tx_hash) with
  | none => (p, none)
  | some kv =>
      ({ transactions := p.transactions.erase kv.2,
         max_size := p.max_size,
         transaction_index := p.transaction_index.filter (fun e => e.1 != tx_hash) },
       some kv.2)

def TransactionPool.get_transactions (p : TransactionPool) (count : ℕ) : List Transaction :=
  p.transactions.take count

def TransactionPool.clear_transactions (p : TransactionPool) (hashes : List String) :
    TransactionPool :=
  hashes.foldl (fun q h => (TransactionPool.remove_transaction q h).1) p

/-! ## Per-type validation (transactions.py, class TransactionValidator) -/

def validate_standard (bc : Blockchain) (tx : Transaction) : Bool :=
  if tx.amount ≤ 0 then false
  else if tx.sender == "system" then true
  else decide (tx.amount + getNumD tx.metadata "fee" 0 ≤ bc.get_balance tx.sender)

def validate_multisig (bc : Blockchain) (tx : Transaction) : Bool :=
  let required := getNumD tx.metadata "required_signatures" 0
  let sigCount : ℕ := match metaLookup tx.metadata "signatures" with
    | some v => jLen v
    | none => 0
  if (sigCount : ℚ) < required then false
  else
    let senders := match metaLookup tx.metadata "senders" with
      | some (.strList xs) => xs
      | _ => []
    decide (tx.amount + getNumD tx.metadata "fee" 0 ≤ (senders.map bc.get_balance).sum)

def validate_time_locked (now : ℚ) (bc : Blockchain) (tx : Transaction) : Bool :=
  if getNumD tx.metadata "unlock_time" 0 ≤ now then false
  else decide (tx.amount + getNumD tx.metadata "fee" 0 ≤ bc.get_balance tx.sender)

def validate_atomic_swap (now : ℚ) (bc : Blockchain) (tx : Transaction) : Bool :=
  if getNumD tx.metadata "expiry" 0 < now then false
  else
    decide (getNumD tx.metadata "amount_a" 0 ≤ bc.get_balance (getStrD tx.metadata "party_a" ""))
    && decide (getNumD tx.metadata "amount_b" 0 ≤ bc.get_balance (getStrD tx.metadata "party_b" ""))

def validate_data_storage (bc : Blockchain) (tx : Transaction) : Bool :=
  if 1024 < getNumD tx.metadata "data_size" 0 then false
  else decide (getNumD tx.metadata "fee" 0 ≤ bc.get_balance tx.sender)

/-- compiles models the success of Python's compile() on the contract source,
an external-interpreter effect. -/
def validate_smart_contract (compiles : String → Bool) (bc : Blockchain) (tx : Transaction) :
    Bool :=
  let code := getStrD tx.metadata "contract_code" ""
  if 10000 < code.length then false
  else if !(compiles code) then false
  else decide (tx.amount + getNumD tx.metadata "fee" 0 ≤ bc.get_balance tx.sender)

/-- TransactionValidator.validate_transaction: dispatch on the transaction type. -/
def validator_validate (compiles : String → Bool) (now : ℚ) (bc : Blockchain)
    (tx : Transaction) : Bool :=
  match tx.tx_type with
  | .standard => validate_standard bc tx
  | .multi_sig => validate_multisig bc tx
  | .time_locked => validate_time_locked now bc tx
  | .atomic_swap => validate_atomic_swap now bc tx
  | .data_storage => validate_data_storage bc tx
  | .smart_contract => validate_smart_contract compiles bc tx

/-! ## P2P node paths (network.py, class P2PNode) -/

/-- P2PNode.handle_new_transaction on a deserialized transaction: revalidate by
type, offer to the pool, and only then admit to the chain store's pending list.
The returned Bool is whether the transaction was admitted to the pool. -/
def handle_new_transaction (compiles : String → Bool) (now : ℚ) (bc : Blockchain)
    (pool : TransactionPool) (tx : Transaction) : TransactionPool × Blockchain × Bool :=
  if validator_validate compiles now bc tx then
    let res := TransactionPool.add_transaction pool tx
    if res.2 then (res.1, (Blockchain.add_transaction now bc tx).1, true)
    else (res.1, bc, false)
  else (pool, bc, false)

/-- P2PNode.validate_chain: for every index i of 1 and up, check the hash link
and that block_hash recomputes; nothing is checked about block 0, difficulty,
or merkle roots. -/
def netValidateChain : List Block → Bool
  | b1 :: b2 :: rest =>
      (b2.previous_hash == b1.block_hash) && (b2.block_hash == b2.calculate_hash)
      && netValidateChain (b2 :: rest)
  | _ => true

/-- P2PNode.handle_chain: adopt a strictly longer chain that passes
netValidateChain, replacing the local chain wholesale. -/
def handle_chain (bc : Blockchain) (newChain : List Block) : Blockchain :=
  if bc.chain.length < newChain.length && netValidateChain newChain then
    { bc with chain := newChain }
  else bc

/-- Chain states reachable through genesis creation, add_block (the local and
gossip append paths) and wholesale chain replacement from a peer. -/
inductive Reachable : Blockchain → Prop where
  | genesis (t1 t2 : ℚ) (fuel : ℕ) (bc : Blockchain) :
      createBlockchain t1 t2 fuel = some bc → Reachable bc
  | add_block (now : ℚ) (b : Block) (bc : Blockchain) :
      Reachable bc → Reachable (Blockchain.add_block now bc b).1
  | replace_chain (newChain : List Block) (bc : Blockchain) :
      Reachable bc → Reachable (handle_chain bc newChain)

/-- Pool states reachable through the TransactionPool operations. -/
inductive PoolReachable : TransactionPool → Prop where
  | init (max_size : ℕ) : PoolReachable (mkTransactionPool max_size)
  | add (tx : Transaction) (p : TransactionPool) :
      PoolReachable p → PoolReachable (TransactionPool.add_transaction p tx).1
  | remove (h : String) (p : TransactionPool) :
      PoolReachable p → PoolReachable (TransactionPool.remove_transaction p h).1
  | clear (hs : List String) (p : TransactionPool) :
      PoolReachable p → PoolReachable (TransactionPool.clear_transactions p hs)

/-! ## Concrete states used by witnesses and counterexamples -/

/-- The genesis block at the time reads 1700051328; its model hash happens to
carry four leading zeros already at nonce 0, so one unit of mining fuel
suffices. -/
def genesisBlock0 : Block :=
  mkBlock 0 1700051328 [genesisTransaction 1700051328] "0" 0 4 none 0 0

def genesisState : Blockchain :=
  { chain := [genesisBlock0], pending_transactions := [], difficulty := 4 }

def overdraftTx : Transaction := create_standard_transaction "alice" "bob" 5 (1/1000) 500

def overdraftPending : Blockchain := (Blockchain.add_transaction 1000 genesisState overdraftTx).1

/-- A block carrying the overdraft transaction whose stored seal hash has the
required difficulty prefix; add_block checks only the prefix of the stored
field, never that it recomputes. -/
def overdraftBlock : Block :=
  { mkBlock 1 1001 [overdraftTx] genesisBlock0.block_hash 0 4 none 0 0 with
      block_hash := "0000feedc8" }

def c1Block : Block :=
  { mkBlock 1 1100 [overdraftTx] genesisBlock0.block_hash 0 4 none 0 0 with
      block_hash := "0000c1" }

/-- All transactions of all blocks of the chain, in chain order. -/
def chainTransactions (bc : Blockchain) : List Transaction :=
  (bc.chain.map (·.transactions)).flatten

/-- A standard transaction used by the C4 scenario. -/
def txAlice : Transaction := create_standard_transaction "alice" "bob" 5 (1/1000) 50

/-- The same envelope with a signature attached: the stored tx_hash is kept
(the dataclass only recomputes an absent hash), so the two objects share a
tx_hash yet differ as objects. -/
def txAliceSigned : Transaction := { txAlice with signature := some "sig" }

def bcC4 : Blockchain :=
  { chain := [genesisBlock0], pending_transactions := [txAliceSigned], difficulty := 4 }

def blkC4 : Block :=
  { mkBlock 1 60 [txAlice] genesisBlock0.block_hash 0 4 none 0 0 with block_hash := "0000c4" }

/-- A block with a fabricated merkle root and seal hash: the replacement path
checks nothing about the first block of a received chain. -/
def badBlock0 : Block :=
  { index := 0, timestamp := 0, transactions := [], previous_hash := "0", nonce := 0,
    difficulty := 4, merkle_root := "bogus", validator := none, stake_weight := 0,
    work_weight := 0, block_hash := "anything" }

/-- An honestly hashed successor of badBlock0. -/
def goodBlock1 : Block := mkBlock 1 80 [] "anything" 0 4 none 0 0

def replacedState : Blockchain := handle_chain genesisState [badBlock0, goodBlock1]

def txLow : Transaction := create_standard_transaction "lena" "bob" 1 (1/100) 10

def txHigh : Transaction := create_standard_transaction "carol" "dave" 1 (1/50) 11

/-- A chain state whose pending list holds a lower-fee transaction before a
higher-fee one, in admission order. -/
def bcC9 : Blockchain :=
  { chain := [genesisBlock0], pending_transactions := [txLow, txHigh], difficulty := 4 }

def vA : Validator :=
  { address := "v_a", stake := 5000, reputation := 1, blocks_validated := 0,
    last_validation_time := 0, is_active := true }

def vB : Validator :=
  { address := "v_b", stake := 5000, reputation := 1, blocks_validated := 0,
    last_validation_time := 0, is_active := true }

def vC : Validator :=
  { address := "v_c", stake := 5000, reputation := 1, blocks_validated := 0,
    last_validation_time := 0, is_active := true }

/-- The consistency invariant of the transaction pool: the index keys are
unique; every index entry is keyed by its transaction's stored tx_hash; the
transaction list is (as a multiset) exactly the index's values; and the list
is in fee-descending order. -/
def PoolInv (p : TransactionPool) : Prop :=
  (p.transaction_index.map Prod.fst).Nodup
  ∧ (∀ kv ∈ p.transaction_index, kv.2.tx_hash = kv.1)
  ∧ p.transactions.Perm (p.transaction_index.map Prod.snd)
  ∧ p.transactions.Pairwise (fun a b => feeOf b ≤ feeOf a)

def s4a : Transaction := create_standard_transaction "s4a" "r" 1 (1/100) 1

def s4b : Transaction := create_standard_transaction "s4b" "r" 1 (1/200) 2

def s4c : Transaction := create_standard_transaction "s4c" "r" 1 (1/50) 3

def c10Chain : Blockchain :=
  { chain := [mkBlock 0 5 [mkTransaction .standard "system" "rich" 100 1 [] none] "0" 0 4 none 0 0],
    pending_transactions := [], difficulty := 4 }

def c10Tx : Transaction := create_standard_transaction "rich" "bob" 10 (1/1000) 6

/-! ## Theorems -/

theorem get_balance_txs_foldl (address : String) :
    ∀ (txs : List Transaction) (acc : ℚ),
      txs.foldl (fun acc tx =>
        let acc2 := if tx.sender == address then acc - tx.amount else acc
        if tx.recipient == address then acc2 + tx.amount else acc2) acc
      = acc + ((txs.filter (fun tx => tx.recipient == address)).map (·.amount)).sum
            - ((txs.filter (fun tx => tx.sender == address)).map (·.amount)).sum := by
  intro txs
  induction txs with
  | nil => intro acc; simp
  | cons tx rest ih =>
      intro acc
      simp only [List.foldl_cons]
      rw [ih]
      by_cases hs : tx.sender == address <;> by_cases hr : tx.recipient == address <;>
        simp [List.filter_cons, hs, hr] <;> ring

theorem get_balance_blocks_foldl (address : String) :
    ∀ (blocks : List Block) (acc : ℚ),
      blocks.foldl (fun bal blk =>
        blk.transactions.foldl (fun acc tx =>
          let acc2 := if tx.sender == address then acc - tx.amount else acc
          if tx.recipient == address then acc2 + tx.amount else acc2) bal) acc
      = acc
        + ((((blocks.map (·.transactions)).flatten).filter
              (fun tx => tx.recipient == address)).map (·.amount)).sum
        - ((((blocks.map (·.transactions)).flatten).filter
              (fun tx => tx.sender == address)).map (·.amount)).sum := by
  intro blocks
  induction blocks with
  | nil => intro acc; simp
  | cons blk rest ih =>
      intro acc
      simp only [List.foldl_cons]
      rw [ih]
      simp only [get_balance_txs_foldl]
      simp only [List.map_cons, List.flatten_cons, List.filter_append,
        List.map_append, List.sum_append]
      ring

/-- C5: for every address a and every chain state, get_balance(a) equals the
sum of amounts received by a minus the sum of amounts sent by a over all
transactions of all blocks; no fee term occurs, so fees are not deducted from
sender balances. -/
theorem C5_get_balance_is_received_minus_sent (bc : Blockchain) (a : String) :
    bc.get_balance a
      = (((chainTransactions bc).filter (fun tx => tx.recipient == a)).map (·.amount)).sum
        - (((chainTransactions bc).filter (fun tx => tx.sender == a)).map (·.amount)).sum := by
  unfold Blockchain.get_balance chainTransactions
  rw [get_balance_blocks_foldl]
  ring

/-- C8: add_transaction admits a transaction to the pending pool if and only
if the amount is non-negative, the serialized metadata is at most 1024 bytes,
and a time-locked transaction carries an unlock_time strictly in the future;
the sender's balance is never consulted, so an overdraft is admitted and, once
included in a block, drives get_balance negative. -/
theorem C8_add_transaction_characterization :
    (∀ (now : ℚ) (bc : Blockchain) (tx : Transaction),
      (Blockchain.add_transaction now bc tx).2 = true ↔
        (0 ≤ tx.amount ∧ (metaJson tx.metadata).length ≤ 1024 ∧
          (tx.tx_type = .time_locked →
            ∃ u : ℚ, metaLookup tx.metadata "unlock_time" = some (.num u) ∧ now < u)))
  ∧ (∀ (now : ℚ) (bc : Blockchain) (tx : Transaction),
      (Blockchain.add_transaction now bc tx).2 = true →
      (Blockchain.add_transaction now bc tx).1.pending_transactions
        = bc.pending_transactions ++ [tx])
  ∧ (∀ (now : ℚ) (bc : Blockchain) (tx : Transaction),
      (Blockchain.add_transaction now bc tx).2 = false →
      (Blockchain.add_transaction now bc tx).1 = bc)
  ∧ ((Blockchain.add_transaction 1000 genesisState overdraftTx).2 = true
      ∧ genesisState.get_balance "alice" < overdraftTx.amount
      ∧ (Blockchain.add_block 1001 overdraftPending overdraftBlock).2 = true
      ∧ (Blockchain.add_block 1001 overdraftPending overdraftBlock).1.get_balance "alice" < 0) := by
  have hval : ∀ (now : ℚ) (tx : Transaction),
      Blockchain.validate_transaction now tx = true ↔
        (0 ≤ tx.amount ∧ (metaJson tx.metadata).length ≤ 1024 ∧
          (tx.tx_type = .time_locked →
            ∃ u : ℚ, metaLookup tx.metadata "unlock_time" = some (.num u) ∧ now < u)) := by
    intro now tx
    unfold Blockchain.validate_transaction
    split_ifs with h1 h2 h3
    · exact iff_of_false (by simp) (fun hc => absurd hc.1 (not_le.mpr h1))
    · exact iff_of_false (by simp) (fun hc => absurd hc.2.1 (not_le.mpr h2))
    · cases hlu : metaLookup tx.metadata "unlock_time" with
      | none => simp [h3]
      | some v =>
          cases v <;> simp [h3, not_lt.mp h1, not_lt.mp h2, decide_eq_true_iff]
    · exact iff_of_true rfl ⟨not_lt.mp h1, not_lt.mp h2, fun hc => absurd hc h3⟩
  refine ⟨?_, ?_, ?_, by decide, by decide, by decide, by decide⟩
  · intro now bc tx
    unfold Blockchain.add_transaction
    by_cases hv : Blockchain.validate_transaction now tx <;>
      simp [hv, ← hval now tx]
  · intro now bc tx h
    unfold Blockchain.add_transaction at *
    by_cases hv : Blockchain.validate_transaction now tx <;> simp [hv] at h ⊢
  · intro now bc tx h
    unfold Blockchain.add_transaction at *
    by_cases hv : Blockchain.validate_transaction now tx <;> simp [hv] at h ⊢

theorem C8_add_transaction_characterization_witness :
    (Blockchain.add_transaction 1000 genesisState overdraftTx).1.pending_transactions
      = genesisState.pending_transactions ++ [overdraftTx] :=
  C8_add_transaction_characterization.2.1 1000 genesisState overdraftTx (by decide)

/-- C1: with a non-empty chain whose tip is tip, add_block(b) succeeds iff
b.index equals the chain length, b.previous_hash equals the tip's block_hash,
b.merkle_root recomputes from b's transactions, b.block_hash carries at least
difficulty leading hex zeros, and every contained transaction passes the
type-independent validation; on success b is appended, on failure the state is
unchanged. -/
theorem C1_append_block_success_iff (now : ℚ) (bc : Blockchain) (b : Block) (tip : Block)
    (htip : bc.chain.getLast? = some tip) :
    ((Blockchain.add_block now bc b).2 = true ↔
      (b.index = bc.chain.length ∧ b.previous_hash = tip.block_hash ∧
       b.merkle_root = b.calculate_merkle_root ∧
       startsWith0s b.block_hash bc.difficulty = true ∧
       ∀ tx ∈ b.transactions, Blockchain.validate_transaction now tx = true))
    ∧ ((Blockchain.add_block now bc b).2 = true →
        (Blockchain.add_block now bc b).1.chain = bc.chain ++ [b])
    ∧ ((Blockchain.add_block now bc b).2 = false →
        (Blockchain.add_block now bc b).1 = bc) := by
  have hsnd : (Blockchain.add_block now bc b).2 = Blockchain.validate_block now bc b := by
    unfold Blockchain.add_block
    by_cases hv : Blockchain.validate_block now bc b <;> simp [hv]
  refine ⟨?_, ?_, ?_⟩
  · rw [hsnd]
    unfold Blockchain.validate_block
    rw [htip]
    simp [Bool.and_eq_true, beq_iff_eq, List.all_eq_true, and_assoc]
  · intro h
    rw [hsnd] at h
    unfold Blockchain.add_block
    simp [h]
  · intro h
    rw [hsnd] at h
    unfold Blockchain.add_block
    simp [h]

theorem C1_append_block_success_iff_witness :
    (Blockchain.add_block 1100 genesisState c1Block).2 = true :=
  (C1_append_block_success_iff 1100 genesisState c1Block genesisBlock0 (by decide)).1.mpr
    (by decide)

/-- C10: on the P2P new_transaction path, a standard transaction from a
non-system sender is admitted to the pool only when the sender's derived
balance covers amount plus fee, and a standard transaction of amount zero is
always rejected, unlike the chain store's own admission layer. -/
theorem C10_network_admission_balance_and_positivity (compiles : String → Bool)
    (now : ℚ) (bc : Blockchain) (pool : TransactionPool) (tx : Transaction) :
    (tx.tx_type = .standard → tx.sender ≠ "system" →
      (handle_new_transaction compiles now bc pool tx).2.2 = true →
      tx.amount + getNumD tx.metadata "fee" 0 ≤ bc.get_balance tx.sender)
    ∧ (tx.tx_type = .standard → tx.amount = 0 →
        (handle_new_transaction compiles now bc pool tx).2.2 = false) := by
  have hstd : ∀ htype : tx.tx_type = TransactionType.standard,
      validator_validate compiles now bc tx = validate_standard bc tx := by
    intro htype
    unfold validator_validate
    rw [htype]
  constructor
  · intro htype hsys hadm
    have hvv : validator_validate compiles now bc tx = true := by
      unfold handle_new_transaction at hadm
      by_cases h : validator_validate compiles now bc tx
      · exact h
      · simp [h] at hadm
    rw [hstd htype] at hvv
    unfold validate_standard at hvv
    rcases le_or_lt tx.amount 0 with ha | ha
    · rw [if_pos ha] at hvv
      exact absurd hvv (by simp)
    · rw [if_neg (not_le.mpr ha)] at hvv
      have hs : (tx.sender == "system") = false := beq_eq_false_iff_ne.mpr hsys
      rw [hs] at hvv
      simp only [Bool.false_eq_true, if_false] at hvv
      exact of_decide_eq_true hvv
  · intro htype hzero
    unfold handle_new_transaction
    have hvv : validator_validate compiles now bc tx = false := by
      rw [hstd htype]
      unfold validate_standard
      simp [le_of_eq hzero]
    simp [hvv]

theorem C10_network_admission_balance_and_positivity_witness :
    c10Tx.amount + getNumD c10Tx.metadata "fee" 0 ≤ c10Chain.get_balance c10Tx.sender :=
  (C10_network_admission_balance_and_positivity (fun _ => true) 7 c10Chain
      (mkTransactionPool 10000) c10Tx).1 (by decide) (by decide) (by decide)


theorem merkleRounds_nil : ∀ f, merkleRounds f [] = "" := by
  intro f
  induction f with
  | zero => rfl
  | succ f ih => exact ih

theorem merkleRounds_singleton (f : ℕ) (h : String) : merkleRounds f [h] = h := by
  cases f <;> rfl

theorem merkleLevel_length : ∀ l : List String, (merkleLevel l).length = l.length / 2
  | [] => by rw [show merkleLevel [] = [] from rfl]; simp
  | [x] => by rw [show merkleLevel [x] = [] from rfl]; simp
  | a :: b :: rest => by
      have ih := merkleLevel_length rest
      simp [merkleLevel, ih]
      omega

theorem padEven_length (hs : List String) :
    (padEven hs).length = if hs.length % 2 = 1 then hs.length + 1 else hs.length := by
  unfold padEven
  split <;> simp

theorem merkleRounds_congr : ∀ (f1 : ℕ) (hs : List String) (f2 : ℕ),
    hs.length ≤ f1 → hs.length ≤ f2 → merkleRounds f1 hs = merkleRounds f2 hs := by
  intro f1
  induction f1 with
  | zero =>
      intro hs f2 h1 _
      have : hs = [] := List.eq_nil_of_length_eq_zero (Nat.le_zero.mp h1)
      subst this
      rw [merkleRounds_nil, merkleRounds_nil]
  | succ f1 ih =>
      intro hs f2 h1 h2
      match hs, h1, h2 with
      | [], _, _ => rw [merkleRounds_nil, merkleRounds_nil]
      | [h], _, _ => rw [merkleRounds_singleton, merkleRounds_singleton]
      | a :: b :: rest, h1, h2 =>
          match f2, h2 with
          | f2 + 1, h2 =>
              show merkleRounds f1 (merkleLevel (padEven (a :: b :: rest)))
                  = merkleRounds f2 (merkleLevel (padEven (a :: b :: rest)))
              have hlen : (merkleLevel (padEven (a :: b :: rest))).length
                  = (padEven (a :: b :: rest)).length / 2 := merkleLevel_length _
              have hpad := padEven_length (a :: b :: rest)
              have hL : (a :: b :: rest).length = rest.length + 2 := by simp
              apply ih
              · rw [hlen, hpad]
                simp only [hL] at h1 ⊢
                split <;> omega
              · rw [hlen, hpad]
                simp only [hL] at h2 ⊢
                split <;> omega

theorem merkleRounds_pair (x y : String) : merkleRounds 2 [x, y] = sha256hex (x ++ y) := by
  have s1 : merkleRounds 2 [x, y] = merkleRounds 1 (merkleLevel (padEven [x, y])) := rfl
  have s2 : padEven [x, y] = [x, y] := by
    unfold padEven
    rw [if_neg (by simp)]
  have s3 : merkleLevel [x, y] = [sha256hex (x ++ y)] := rfl
  rw [s1, s2, s3]
  exact merkleRounds_singleton 1 _

/-- C6: the Merkle root takes the transaction hashes in list order as leaves;
each round duplicates the last hash when the count is odd and replaces
adjacent pairs by the digest of the concatenated hex strings, until one hash
remains; the empty transaction list yields the digest of the empty byte
string. -/
theorem C6_merkle_root_construction :
    (∀ b : Block, b.transactions = [] → b.calculate_merkle_root = sha256hex "")
  ∧ (∀ b : Block, b.transactions ≠ [] →
      b.calculate_merkle_root = calcMerkleRootHashes (b.transactions.map (·.tx_hash)))
  ∧ (∀ h : String, calcMerkleRootHashes [h] = h)
  ∧ (∀ hs : List String, 2 ≤ hs.length →
      calcMerkleRootHashes hs = calcMerkleRootHashes (merkleLevel (padEven hs)))
  ∧ (∀ a b rest, merkleLevel (a :: b :: rest) = sha256hex (a ++ b) :: merkleLevel rest)
  ∧ (∀ hs : List String, hs.length % 2 = 1 → padEven hs = hs ++ [hs.getLast?.getD ""])
  ∧ (∀ hs : List String, hs.length % 2 = 0 → padEven hs = hs)
  ∧ (∀ h1 h2 h3 : String, calcMerkleRootHashes [h1, h2, h3]
      = sha256hex (sha256hex (h1 ++ h2) ++ sha256hex (h3 ++ h3))) := by
  refine ⟨?_, ?_, ?_, ?_, ?_, ?_, ?_, ?_⟩
  · intro b hb
    unfold Block.calculate_merkle_root
    rw [if_pos hb]
  · intro b hb
    unfold Block.calculate_merkle_root
    rw [if_neg hb]
  · intro h
    exact merkleRounds_singleton _ h
  · intro hs hlen
    match hs, hlen with
    | a :: b :: rest, _ =>
        show merkleRounds (a :: b :: rest).length (a :: b :: rest) = _
        have hstep : merkleRounds (a :: b :: rest).length (a :: b :: rest)
            = merkleRounds (rest.length + 1) (merkleLevel (padEven (a :: b :: rest))) := by
          rfl
        rw [hstep]
        apply merkleRounds_congr
        · have hlen2 : (merkleLevel (padEven (a :: b :: rest))).length
              = (padEven (a :: b :: rest)).length / 2 := merkleLevel_length _
          have hpad := padEven_length (a :: b :: rest)
          rw [hlen2, hpad]
          have hL : (a :: b :: rest).length = rest.length + 2 := by simp
          simp only [hL]
          split <;> omega
        · exact le_refl _
  · intro a b rest
    rfl
  · intro hs hodd
    unfold padEven
    rw [if_pos hodd]
  · intro hs heven
    unfold padEven
    rw [if_neg (by omega)]
  · intro h1 h2 h3
    have e2 : padEven [h1, h2, h3] = [h1, h2, h3, h3] := by
      unfold padEven
      rw [if_pos (show [h1, h2, h3].length % 2 = 1 by simp)]
      rfl
    have e0 : calcMerkleRootHashes [h1, h2, h3] = merkleRounds 3 [h1, h2, h3] := by
      unfold calcMerkleRootHashes
      norm_num
    have e1 : merkleRounds 3 [h1, h2, h3]
        = merkleRounds 2 (merkleLevel (padEven [h1, h2, h3])) := rfl
    rw [e0, e1, e2]
    have e3 : merkleLevel [h1, h2, h3, h3]
        = [sha256hex (h1 ++ h2), sha256hex (h3 ++ h3)] := rfl
    rw [e3]
    exact merkleRounds_pair (sha256hex (h1 ++ h2)) (sha256hex (h3 ++ h3))

theorem C6_merkle_root_construction_witness :
    calcMerkleRootHashes ["a", "b"]
      = calcMerkleRootHashes (merkleLevel (padEven ["a", "b"])) :=
  C6_merkle_root_construction.2.2.2.1 ["a", "b"] (by decide)

/-- C4 (counterexample): eviction from the pending pool is by whole-object
equality, not tx_hash identity: a pending transaction sharing the tx_hash of
an included transaction but differing in its signature survives add_block. -/
theorem C4_removal_by_tx_hash_counterexample :
    ¬ (∀ (now : ℚ) (bc : Blockchain) (b : Block),
        (Blockchain.add_block now bc b).2 = true →
        ∀ tx ∈ (Blockchain.add_block now bc b).1.pending_transactions,
          ∀ btx ∈ b.transactions, tx.tx_hash ≠ btx.tx_hash) := by
  intro hclaim
  have h1 : (Blockchain.add_block 70 bcC4 blkC4).2 = true := by decide
  have h2 : txAliceSigned ∈ (Blockchain.add_block 70 bcC4 blkC4).1.pending_transactions := by
    decide
  have h3 : txAlice ∈ blkC4.transactions := by decide
  exact hclaim 70 bcC4 blkC4 h1 txAliceSigned h2 txAlice h3 (by decide)

/-- C4 (amended): after a successful add_block(b), no pending transaction that
is equal (as a whole object, Python dataclass equality) to a transaction of b
remains in the pending pool; removal is by object equality, so an entry that
merely shares a tx_hash with an included transaction is not removed. -/
theorem C4_included_transactions_evicted (now : ℚ) (bc : Blockchain) (b : Block)
    (hs : (Blockchain.add_block now bc b).2 = true) :
    ∀ tx ∈ (Blockchain.add_block now bc b).1.pending_transactions, tx ∉ b.transactions := by
  unfold Blockchain.add_block at hs ⊢
  by_cases hv : Blockchain.validate_block now bc b
  · simp only [hv, if_pos] at hs ⊢
    intro tx htx
    have := (List.mem_filter.mp htx).2
    exact of_decide_eq_true this
  · simp [hv] at hs

theorem C4_included_transactions_evicted_witness :
    txAliceSigned ∉ blkC4.transactions :=
  C4_included_transactions_evicted 70 bcC4 blkC4 (by decide) txAliceSigned (by decide)

theorem netValidateChain_chain' :
    ∀ l : List Block, netValidateChain l = true →
      List.Chain' (fun a b : Block => b.previous_hash = a.block_hash) l
  | [] => fun _ => List.chain'_nil
  | [b] => fun _ => List.chain'_singleton b
  | b1 :: b2 :: rest => by
      intro h
      unfold netValidateChain at h
      simp only [Bool.and_eq_true, beq_iff_eq] at h
      rw [List.chain'_cons]
      exact ⟨h.1.1, netValidateChain_chain' (b2 :: rest) h.2⟩

/-- C3 (counterexample): the recomputation invariant fails on reachable
states: wholesale chain replacement checks neither merkle roots nor the first
block's hash, so a chain containing a block with a fabricated merkle root is
adopted. -/
theorem C3_recompute_invariant_counterexample :
    ¬ (∀ bc, Reachable bc → ∀ b ∈ bc.chain,
        b.merkle_root = b.calculate_merkle_root ∧ b.block_hash = b.calculate_hash) := by
  intro hclaim
  have hreach : Reachable replacedState :=
    Reachable.replace_chain [badBlock0, goodBlock1] genesisState
      (Reachable.genesis 1700051328 1700051328 1 genesisState (by decide))
  have hmem : badBlock0 ∈ replacedState.chain := by decide
  have hbad : badBlock0.merkle_root ≠ badBlock0.calculate_merkle_root := by decide
  exact hbad (hclaim replacedState hreach badBlock0 hmem).1

/-- C3 (amended): what does hold of every reachable chain state is that the
chain is non-empty and hash-linked (each block's previous_hash equals its
predecessor's block_hash); the merkle-root and block-hash recomputation
properties are not reachable-state invariants because add_block never checks
that block_hash recomputes and chain replacement never checks merkle roots or
the first block. -/
theorem C3_reachable_chain_nonempty_and_linked :
    ∀ bc, Reachable bc → bc.chain ≠ [] ∧
      List.Chain' (fun a b : Block => b.previous_hash = a.block_hash) bc.chain := by
  intro bc h
  induction h with
  | genesis t1 t2 fuel bc h =>
      unfold createBlockchain at h
      simp only [Option.map_eq_some'] at h
      obtain ⟨gb, -, hbc⟩ := h
      subst hbc
      exact ⟨by simp, List.chain'_singleton gb⟩
  | add_block now b bc hbc ih =>
      by_cases hv : Blockchain.validate_block now bc b
      · have hres : (Blockchain.add_block now bc b).1
            = { bc with
                chain := bc.chain ++ [b],
                pending_transactions := bc.pending_transactions.filter
                  (fun tx => decide (tx ∉ b.transactions)) } := by
          unfold Blockchain.add_block
          rw [if_pos hv]
        have hv2 := hv
        unfold Blockchain.validate_block at hv2
        simp only [Bool.and_eq_true, beq_iff_eq] at hv2
        obtain ⟨⟨⟨⟨-, hmatch⟩, -⟩, -⟩, -⟩ := hv2
        cases hlast : bc.chain.getLast? with
        | none => rw [hlast] at hmatch; simp at hmatch
        | some tip =>
            rw [hlast] at hmatch
            have hlink : b.previous_hash = tip.block_hash := by simpa using hmatch
            rw [hres]
            constructor
            · simp
            · apply List.Chain'.append ih.2 (List.chain'_singleton b)
              intro x hx y hy
              have hx2 : tip = x := by
                rw [hlast] at hx
                exact Option.mem_some_iff.mp hx
              have hy2 : b = y := by
                simpa using hy
              rw [← hx2, ← hy2]
              exact hlink
      · have hres : (Blockchain.add_block now bc b).1 = bc := by
          unfold Blockchain.add_block
          rw [if_neg hv]
        rw [hres]
        exact ih
  | replace_chain newChain bc hbc ih =>
      unfold handle_chain
      by_cases hc : bc.chain.length < newChain.length && netValidateChain newChain
      · rw [if_pos hc]
        simp only [Bool.and_eq_true, decide_eq_true_eq] at hc
        exact ⟨List.ne_nil_of_length_pos (lt_of_le_of_lt (Nat.zero_le _) hc.1),
          netValidateChain_chain' newChain hc.2⟩
      · rw [if_neg hc]
        exact ih

theorem C3_reachable_chain_nonempty_and_linked_witness :
    genesisState.chain ≠ [] ∧
      List.Chain' (fun a b : Block => b.previous_hash = a.block_hash) genesisState.chain :=
  C3_reachable_chain_nonempty_and_linked genesisState
    (Reachable.genesis 1700051328 1700051328 1 genesisState (by decide))


/-- C9 (counterexample): create_block takes the pending transactions in the
pending list's stored admission order, not in fee-descending order: with fees
0.01 then 0.02 pending in that order, the built block carries them unsorted
while the fee-descending order would reverse them. -/
theorem C9_fee_order_counterexample :
    (Blockchain.create_block 12 bcC9 "v" (7/10)).map (·.transactions)
        = some [txLow, txHigh]
    ∧ (sortByFeeDesc bcC9.pending_transactions).take 100 = [txHigh, txLow]
    ∧ txLow ≠ txHigh := by
  refine ⟨by decide, by decide, by decide⟩

/-- C9 (amended): create_block returns absent when the pending pool is empty;
otherwise it returns an unsealed block whose transactions are the first
up-to-100 pending entries in the pending list's stored admission order, with
index equal to the chain length, previous_hash equal to the tip's block_hash,
the chain's current difficulty, and the producer recorded as validator. -/
theorem C9_create_block_characterization :
    (∀ (now : ℚ) (bc : Blockchain) (v : String) (sw : ℚ),
        bc.pending_transactions = [] → Blockchain.create_block now bc v sw = none)
  ∧ (∀ (now : ℚ) (bc : Blockchain) (v : String) (sw : ℚ) (tip : Block),
        bc.chain.getLast? = some tip → bc.pending_transactions ≠ [] →
        ∃ blk, Blockchain.create_block now bc v sw = some blk
          ∧ blk.transactions = bc.pending_transactions.take 100
          ∧ blk.index = bc.chain.length
          ∧ blk.previous_hash = tip.block_hash
          ∧ blk.difficulty = bc.difficulty
          ∧ blk.validator = some v
          ∧ blk.nonce = 0
          ∧ blk.stake_weight = sw
          ∧ blk.work_weight = 1 - sw) := by
  constructor
  · intro now bc v sw h
    unfold Blockchain.create_block
    rw [if_pos h]
  · intro now bc v sw tip htip hne
    unfold Blockchain.create_block
    rw [if_neg hne, htip]
    exact ⟨_, rfl, rfl, rfl, rfl, rfl, rfl, rfl, rfl, rfl⟩

theorem C9_create_block_characterization_witness :
    ∃ blk, Blockchain.create_block 12 bcC9 "v" (7/10) = some blk
      ∧ blk.transactions = bcC9.pending_transactions.take 100
      ∧ blk.index = bcC9.chain.length
      ∧ blk.previous_hash = genesisBlock0.block_hash
      ∧ blk.difficulty = bcC9.difficulty
      ∧ blk.validator = some "v"
      ∧ blk.nonce = 0
      ∧ blk.stake_weight = 7/10
      ∧ blk.work_weight = 1 - 7/10 :=
  C9_create_block_characterization.2 12 bcC9 "v" (7/10) genesisBlock0
    (by decide) (by decide)


theorem charListLe_cases (a b : Char) (as bs : List Char) :
    charListLe (a :: as) (b :: bs) = true ↔ a < b ∨ (a = b ∧ charListLe as bs = true) := by
  have hdef : charListLe (a :: as) (b :: bs)
      = if a < b then true else if b < a then false else charListLe as bs := rfl
  rw [hdef]
  rcases lt_trichotomy a b with h | h | h
  · rw [if_pos h]
    simp [h]
  · subst h
    rw [if_neg (lt_irrefl a), if_neg (lt_irrefl a)]
    simp
  · rw [if_neg (lt_asymm h), if_pos h]
    exact iff_of_false (by simp)
      (by rintro (hlt | ⟨rfl, -⟩)
          exacts [absurd hlt (lt_asymm h), absurd h (lt_irrefl _)])

theorem charListLe_total : ∀ as bs : List Char,
    charListLe as bs = true ∨ charListLe bs as = true
  | [], _ => Or.inl rfl
  | _ :: _, [] => Or.inr rfl
  | a :: as, b :: bs => by
      rcases lt_trichotomy a b with h | h | h
      · left
        rw [charListLe_cases]
        exact Or.inl h
      · rcases charListLe_total as bs with ih | ih
        · left
          rw [charListLe_cases]
          exact Or.inr ⟨h, ih⟩
        · right
          rw [charListLe_cases]
          exact Or.inr ⟨h.symm, ih⟩
      · right
        rw [charListLe_cases]
        exact Or.inl h

theorem charListLe_trans : ∀ as bs cs : List Char,
    charListLe as bs = true → charListLe bs cs = true → charListLe as cs = true
  | [], _, _ => fun _ _ => rfl
  | _ :: _, [], _ => fun h _ => by simp [charListLe] at h
  | _ :: _, _ :: _, [] => fun _ h => by simp [charListLe] at h
  | a :: as, b :: bs, c :: cs => fun h1 h2 => by
      rw [charListLe_cases] at h1 h2 ⊢
      rcases h1 with h1 | ⟨rfl, h1⟩
      · rcases h2 with h2 | ⟨rfl, h2⟩
        · exact Or.inl (lt_trans h1 h2)
        · exact Or.inl h1
      · rcases h2 with h2 | ⟨rfl, h2⟩
        · exact Or.inl h2
        · exact Or.inr ⟨rfl, charListLe_trans as bs cs h1 h2⟩

theorem charListLe_antisymm : ∀ as bs : List Char,
    charListLe as bs = true → charListLe bs as = true → as = bs
  | [], [] => fun _ _ => rfl
  | [], _ :: _ => fun _ h => by simp [charListLe] at h
  | _ :: _, [] => fun h _ => by simp [charListLe] at h
  | a :: as, b :: bs => fun h1 h2 => by
      rw [charListLe_cases] at h1 h2
      rcases h1 with h1 | ⟨rfl, h1⟩
      · rcases h2 with h2 | ⟨heq, -⟩
        · exact absurd (lt_trans h1 h2) (lt_irrefl a)
        · subst heq
          exact absurd h1 (lt_irrefl _)
      · rcases h2 with h2 | ⟨-, h2⟩
        · exact absurd h2 (lt_irrefl _)
        · rw [charListLe_antisymm as bs h1 h2]

theorem strLe_total (a b : String) : strLe a b = true ∨ strLe b a = true :=
  charListLe_total a.data b.data

theorem strLe_trans (a b c : String) :
    strLe a b = true → strLe b c = true → strLe a c = true :=
  charListLe_trans a.data b.data c.data

theorem strLe_antisymm (a b : String) :
    strLe a b = true → strLe b a = true → a = b := by
  intro h1 h2
  cases a with
  | mk da =>
      cases b with
      | mk db =>
          have : da = db := charListLe_antisymm da db h1 h2
          rw [this]

theorem insertionSort_address_map (l V : List Validator)
    (hperm : V.Perm l)
    (hsort : V.Pairwise (fun a b => strLe a.address b.address = true)) :
    (List.insertionSort (fun a b => strLe a.address b.address = true) l).map (·.address)
      = V.map (·.address) := by
  haveI : IsTotal Validator (fun a b => strLe a.address b.address = true) :=
    ⟨fun a b => strLe_total _ _⟩
  haveI : IsTrans Validator (fun a b => strLe a.address b.address = true) :=
    ⟨fun _ _ _ hab hbc => strLe_trans _ _ _ hab hbc⟩
  haveI : IsAntisymm String (fun x y => strLe x y = true) :=
    ⟨fun a b => strLe_antisymm a b⟩
  have hs1 : ((List.insertionSort (fun a b => strLe a.address b.address = true) l).map
      (·.address)).Pairwise (fun x y => strLe x y = true) :=
    List.Pairwise.map _ (fun a b h => h) (List.sorted_insertionSort _ l)
  have hs2 : (V.map (·.address)).Pairwise (fun x y => strLe x y = true) :=
    List.Pairwise.map _ (fun a b h => h) hsort
  exact List.eq_of_perm_of_sorted
    (((List.perm_insertionSort _ l).trans hperm.symm).map _) hs1 hs2

theorem select_validator_eq_sorted (vs : List Validator) (h : ℕ) (V : List Validator)
    (hperm : V.Perm (vs.filter (·.is_active)))
    (hsort : V.Pairwise (fun a b => strLe a.address b.address = true))
    (hne : V ≠ []) :
    select_validator vs h = (V[h % V.length]?).map (·.address) := by
  have hactne : vs.filter (·.is_active) ≠ [] := by
    intro he
    rw [he] at hperm
    exact hne hperm.eq_nil
  simp only [select_validator]
  rw [if_neg hactne]
  have hmap := insertionSort_address_map (vs.filter (·.is_active)) V hperm hsort
  have hlen : (List.insertionSort (fun a b => strLe a.address b.address = true)
      (vs.filter (·.is_active))).length = V.length := by
    have := congrArg List.length hmap
    simpa using this
  rw [← List.getElem?_map, hmap, List.getElem?_map, hlen]

/-- C2: the producer elected at chain length h is the validator at index
h mod n in the active validator list sorted ascending by address; selection
returns none exactly when no validator is active; two registries whose active
sets agree as multisets elect the same producer; and with v_a, v_b, v_c
registered in any of the six orders, chain lengths 3, 4, 5, 6 elect
v_a, v_b, v_c, v_a. -/
theorem C2_producer_selection_round_robin :
    (∀ (vs : List Validator) (h : ℕ) (V : List Validator),
      V.Perm (vs.filter (·.is_active)) →
      V.Pairwise (fun a b => strLe a.address b.address = true) →
      V ≠ [] →
      select_validator vs h = (V[h % V.length]?).map (·.address))
  ∧ (∀ (vs : List Validator) (h : ℕ),
      vs.filter (·.is_active) = [] → select_validator vs h = none)
  ∧ (∀ (vs1 vs2 : List Validator) (h : ℕ),
      (vs1.filter (·.is_active)).Perm (vs2.filter (·.is_active)) →
      select_validator vs1 h = select_validator vs2 h)
  ∧ (([["v_a", "v_b", "v_c"], ["v_a", "v_c", "v_b"], ["v_b", "v_a", "v_c"],
       ["v_b", "v_c", "v_a"], ["v_c", "v_a", "v_b"], ["v_c", "v_b", "v_a"]].all fun order =>
        let vs := order.foldl (fun acc a => (register_validator acc a 5000).1) []
        [(3, "v_a"), (4, "v_b"), (5, "v_c"), (6, "v_a")].all fun hp =>
          select_validator vs hp.1 == some hp.2) = true) := by
  refine ⟨fun vs h V => select_validator_eq_sorted vs h V, ?_, ?_, by decide⟩
  · intro vs h hef
    simp only [select_validator]
    rw [if_pos hef]
  · intro vs1 vs2 h hperm
    by_cases hcase : vs1.filter (·.is_active) = []
    · have h2 : vs2.filter (·.is_active) = [] :=
        (List.Perm.eq_nil (hperm.symm.trans (by rw [hcase]))).symm ▸ rfl
      simp only [select_validator]
      rw [if_pos hcase, if_pos h2]
    · have hsort : (List.insertionSort (fun a b => strLe a.address b.address = true)
          (vs1.filter (·.is_active))).Pairwise
            (fun a b => strLe a.address b.address = true) := by
        haveI : IsTotal Validator (fun a b => strLe a.address b.address = true) :=
          ⟨fun a b => strLe_total _ _⟩
        haveI : IsTrans Validator (fun a b => strLe a.address b.address = true) :=
          ⟨fun _ _ _ hab hbc => strLe_trans _ _ _ hab hbc⟩
        exact List.sorted_insertionSort _ _
      have hperm1 : (List.insertionSort (fun a b => strLe a.address b.address = true)
          (vs1.filter (·.is_active))).Perm (vs1.filter (·.is_active)) :=
        List.perm_insertionSort _ _
      have hne : (List.insertionSort (fun a b => strLe a.address b.address = true)
          (vs1.filter (·.is_active))) ≠ [] := by
        intro he
        apply hcase
        rw [he] at hperm1
        exact (List.Perm.eq_nil hperm1.symm)
      rw [select_validator_eq_sorted vs1 h _ hperm1 hsort hne,
          select_validator_eq_sorted vs2 h _ (hperm1.trans hperm) hsort hne]

theorem C2_producer_selection_round_robin_witness :
    select_validator [vB, vC, vA] 4 = some "v_b" := by
  have happ := C2_producer_selection_round_robin.1 [vB, vC, vA] 4 [vA, vB, vC]
    (by decide) (by decide) (by decide)
  rw [happ]
  decide


theorem pool_add_failure_eq (p : TransactionPool) (tx : Transaction)
    (h : (TransactionPool.add_transaction p tx).2 = false) :
    (TransactionPool.add_transaction p tx).1 = p := by
  unfold TransactionPool.add_transaction at h ⊢
  split_ifs at h ⊢ <;> simp_all

theorem pool_add_failure_iff (p : TransactionPool) (tx : Transaction) (hinv : PoolInv p) :
    (TransactionPool.add_transaction p tx).2 = false ↔
      (p.max_size ≤ p.transactions.length ∨ tx.tx_hash ∈ p.transactions.map (·.tx_hash)) := by
  obtain ⟨-, hkv, hperm, -⟩ := hinv
  unfold TransactionPool.add_transaction
  split_ifs with h1 h2
  · exact iff_of_true rfl (Or.inl h1)
  · refine iff_of_true rfl (Or.inr ?_)
    obtain ⟨kv, hfind⟩ := Option.isSome_iff_exists.mp h2
    have hkmem := List.mem_of_find?_eq_some hfind
    have hk1 : kv.1 = tx.tx_hash := by
      have := List.find?_some hfind
      simpa using this
    have hsnd : kv.2 ∈ p.transaction_index.map Prod.snd := List.mem_map_of_mem _ hkmem
    have htrans : kv.2 ∈ p.transactions := hperm.mem_iff.mpr hsnd
    have : kv.2.tx_hash = tx.tx_hash := (hkv kv hkmem).trans hk1
    exact this ▸ List.mem_map_of_mem _ htrans
  · refine iff_of_false (by simp) ?_
    rintro (hlen | hmem)
    · exact h1 hlen
    · have hnone : p.transaction_index.find? (fun kv => kv.1 == tx.tx_hash) = none :=
        Option.not_isSome_iff_eq_none.mp h2
      obtain ⟨t, htmem, hthash⟩ := List.mem_map.mp hmem
      have ht2 : t ∈ p.transaction_index.map Prod.snd := hperm.mem_iff.mp htmem
      obtain ⟨kv, hkvmem, hkvsnd⟩ := List.mem_map.mp ht2
      have hkey : kv.1 = tx.tx_hash := by
        rw [← hkv kv hkvmem, hkvsnd, hthash]
      have hnp := List.find?_eq_none.mp hnone kv hkvmem
      exact hnp (by simpa using hkey)

theorem poolInv_preserved_add (p : TransactionPool) (tx : Transaction) (hinv : PoolInv p) :
    PoolInv (TransactionPool.add_transaction p tx).1 := by
  obtain ⟨hnodup, hkv, hperm, hsorted⟩ := hinv
  unfold TransactionPool.add_transaction
  split_ifs with h1 h2
  · exact ⟨hnodup, hkv, hperm, hsorted⟩
  · exact ⟨hnodup, hkv, hperm, hsorted⟩
  · have hnone : p.transaction_index.find? (fun kv => kv.1 == tx.tx_hash) = none :=
      Option.not_isSome_iff_eq_none.mp h2
    have hnotin : tx.tx_hash ∉ p.transaction_index.map Prod.fst := by
      intro hin
      obtain ⟨kv, hkvmem, hkvfst⟩ := List.mem_map.mp hin
      exact List.find?_eq_none.mp hnone kv hkvmem (by simpa using hkvfst)
    refine ⟨?_, ?_, ?_, ?_⟩
    · rw [List.map_append]
      rw [List.nodup_append]
      refine ⟨hnodup, by simp, ?_⟩
      intro a ha hb
      simp only [List.map_cons, List.map_nil, List.mem_singleton] at hb
      exact hnotin (hb ▸ ha)
    · intro kv hkvmem
      rcases List.mem_append.mp hkvmem with hold | hnew
      · exact hkv kv hold
      · have : kv = (tx.tx_hash, tx) := by simpa using hnew
        rw [this]
    · have h3 : (p.transactions ++ [tx]).Perm
          (p.transaction_index.map Prod.snd ++ [tx]) := hperm.append_right [tx]
      have h4 : (sortByFeeDesc (p.transactions ++ [tx])).Perm (p.transactions ++ [tx]) :=
        List.perm_insertionSort _ _
      rw [List.map_append]
      exact h4.trans h3
    · haveI : IsTotal Transaction (fun a b => feeOf b ≤ feeOf a) :=
        ⟨fun a b => le_total _ _⟩
      haveI : IsTrans Transaction (fun a b => feeOf b ≤ feeOf a) :=
        ⟨fun _ _ _ hab hbc => le_trans hbc hab⟩
      exact List.sorted_insertionSort _ _

theorem poolInv_preserved_remove (p : TransactionPool) (h : String) (hinv : PoolInv p) :
    PoolInv (TransactionPool.remove_transaction p h).1 := by
  obtain ⟨hnodup, hkv, hperm, hsorted⟩ := hinv
  unfold TransactionPool.remove_transaction
  cases hfind : p.transaction_index.find? (fun kv => kv.1 == h) with
  | none => exact ⟨hnodup, hkv, hperm, hsorted⟩
  | some kv =>
      have hkmem : kv ∈ p.transaction_index := List.mem_of_find?_eq_some hfind
      have hk1 : kv.1 = h := by
        have := List.find?_some hfind
        simpa using this
      obtain ⟨pre, post, hsplit⟩ := List.append_of_mem hkmem
      have hkeys2 : (kv.1 :: (pre.map Prod.fst ++ post.map Prod.fst)).Nodup := by
        apply List.nodup_middle.mp
        rw [hsplit] at hnodup
        simpa using hnodup
      have hknotin := (List.nodup_cons.mp hkeys2).1
      have hkeysnodup := (List.nodup_cons.mp hkeys2).2
      have hprekeys : kv.1 ∉ pre.map Prod.fst :=
        fun hin => hknotin (List.mem_append_left _ hin)
      have hfiltereq : p.transaction_index.filter (fun e => e.1 != h) = pre ++ post := by
        rw [hsplit, List.filter_append]
        have hq : (kv.1 != h) = false := by
          rw [hk1]
          simp
        have hpre : pre.filter (fun e => e.1 != h) = pre := by
          apply List.filter_eq_self.mpr
          intro e hemem
          have hne : e.1 ≠ h := by
            intro heq
            exact hprekeys (hk1 ▸ heq ▸ List.mem_map_of_mem Prod.fst hemem)
          simpa using hne
        have hpost : post.filter (fun e => e.1 != h) = post := by
          apply List.filter_eq_self.mpr
          intro e hemem
          have hne : e.1 ≠ h := by
            intro heq
            exact hknotin (List.mem_append_right _
              (hk1 ▸ heq ▸ List.mem_map_of_mem Prod.fst hemem))
          simpa using hne
        rw [hpre]
        simp [List.filter_cons, hq, hpost]
      have hmapped : (p.transaction_index.map Prod.snd).erase kv.2
          = (p.transaction_index.filter (fun e => e.1 != h)).map Prod.snd := by
        rw [hfiltereq, hsplit, List.map_append, List.map_cons, List.map_append]
        have hsndnotin : kv.2 ∉ pre.map Prod.snd := by
          intro hin
          obtain ⟨e, hemem, hesnd⟩ := List.mem_map.mp hin
          have he1 : e.2.tx_hash = e.1 :=
            hkv e (by rw [hsplit]; exact List.mem_append_left _ hemem)
          have hcontr : e.1 = kv.1 := by
            rw [← he1, hesnd, hkv kv hkmem]
          exact hprekeys (hcontr ▸ List.mem_map_of_mem Prod.fst hemem)
        rw [List.erase_append_right _ hsndnotin, List.erase_cons_head]
      refine ⟨?_, ?_, ?_, ?_⟩
      · rw [hfiltereq, List.map_append]
        exact hkeysnodup
      · intro e hemem
        exact hkv e (List.mem_of_mem_filter hemem)
      · have hA := List.Perm.erase kv.2 hperm
        rw [hmapped] at hA
        exact hA
      · exact List.Pairwise.sublist (List.erase_sublist _ _) hsorted

theorem poolInv_preserved_clear :
    ∀ (hs : List String) (p : TransactionPool), PoolInv p →
      PoolInv (TransactionPool.clear_transactions p hs)
  | [], _, hp => hp
  | h :: t, p, hp =>
      poolInv_preserved_clear t _ (poolInv_preserved_remove p h hp)

theorem poolInv_reachable : ∀ p : TransactionPool, PoolReachable p → PoolInv p := by
  intro p h
  induction h with
  | init m => exact ⟨by simp [mkTransactionPool], by simp [mkTransactionPool],
      by simp [mkTransactionPool], by simp [mkTransactionPool]⟩
  | add tx p hp ih => exact poolInv_preserved_add p tx ih
  | remove h p hp ih => exact poolInv_preserved_remove p h ih
  | clear hs p hp ih => exact poolInv_preserved_clear hs p ih

theorem sortByFeeDesc_filter_fee (L : List Transaction) (f : ℚ) :
    (sortByFeeDesc L).filter (fun t => feeOf t == f) = L.filter (fun t => feeOf t == f) := by
  have hsub1 : List.Sublist (L.filter (fun t => feeOf t == f)) L := List.filter_sublist L
  have hpw : (L.filter (fun t => feeOf t == f)).Pairwise (fun a b => feeOf b ≤ feeOf a) := by
    apply List.pairwise_of_forall_mem_list
    intro a ha b hb
    have hfa : feeOf a = f := by simpa using (List.mem_filter.mp ha).2
    have hfb : feeOf b = f := by simpa using (List.mem_filter.mp hb).2
    rw [hfa, hfb]
  have hsub2 : List.Sublist (L.filter (fun t => feeOf t == f)) (sortByFeeDesc L) :=
    List.sublist_insertionSort hpw hsub1
  have hsub3 : List.Sublist ((L.filter (fun t => feeOf t == f)).filter (fun t => feeOf t == f))
      ((sortByFeeDesc L).filter (fun t => feeOf t == f)) :=
    hsub2.filter _
  rw [List.filter_filter] at hsub3
  have hidem : (L.filter (fun t => (feeOf t == f) && (feeOf t == f)))
      = L.filter (fun t => feeOf t == f) := by
    apply List.filter_congr
    intro t _
    simp [Bool.and_self]
  rw [hidem] at hsub3
  have hpermf : ((sortByFeeDesc L).filter (fun t => feeOf t == f)).Perm
      (L.filter (fun t => feeOf t == f)) :=
    (List.perm_insertionSort _ L).filter _
  exact (hsub3.eq_of_length hpermf.length_eq.symm).symm

/-- C7: pool admission fails exactly when the pool is full or the tx_hash is
already present, leaving the pool unchanged; every pool state reachable
through the pool operations satisfies the consistency invariant, hence no two
entries share a tx_hash and the list is fee-descending; a successful insertion
preserves the relative order of entries of any given fee (stability, ties by
insertion order); get_transactions returns the first n entries without
mutation; and admitting fees 0.01, 0.005, 0.02 in that order yields
take-3 order 0.02, 0.01, 0.005. -/
theorem C7_pool_admission_order_and_uniqueness :
    (∀ (p : TransactionPool) (tx : Transaction), PoolInv p →
      ((TransactionPool.add_transaction p tx).2 = false ↔
        (p.max_size ≤ p.transactions.length ∨ tx.tx_hash ∈ p.transactions.map (·.tx_hash))))
  ∧ (∀ (p : TransactionPool) (tx : Transaction),
      (TransactionPool.add_transaction p tx).2 = false →
      (TransactionPool.add_transaction p tx).1 = p)
  ∧ (∀ p : TransactionPool, PoolReachable p → PoolInv p)
  ∧ (∀ p : TransactionPool, PoolReachable p → (p.transactions.map (·.tx_hash)).Nodup)
  ∧ (∀ p : TransactionPool, PoolReachable p →
      p.transactions.Pairwise (fun a b => feeOf b ≤ feeOf a))
  ∧ (∀ (p : TransactionPool) (tx : Transaction) (f : ℚ),
      (TransactionPool.add_transaction p tx).2 = true →
      ((TransactionPool.add_transaction p tx).1.transactions.filter (fun t => feeOf t == f))
        = ((p.transactions ++ [tx]).filter (fun t => feeOf t == f)))
  ∧ (∀ (p : TransactionPool) (n : ℕ),
      TransactionPool.get_transactions p n = p.transactions.take n)
  ∧ (((mkTransactionPool 10000).add_transaction s4a).2 = true
      ∧ ((((mkTransactionPool 10000).add_transaction s4a).1).add_transaction s4b).2 = true
      ∧ ((((((mkTransactionPool 10000).add_transaction s4a).1).add_transaction
            s4b).1).add_transaction s4c).2 = true
      ∧ TransactionPool.get_transactions
          ((((((mkTransactionPool 10000).add_transaction s4a).1).add_transaction
            s4b).1).add_transaction s4c).1 3 = [s4c, s4a, s4b]) := by
  refine ⟨fun p tx hinv => pool_add_failure_iff p tx hinv,
    fun p tx hf => pool_add_failure_eq p tx hf,
    poolInv_reachable,
    ?_, ?_, ?_,
    fun p n => rfl,
    by decide, by decide, by decide, by decide⟩
  · intro p hp
    obtain ⟨hnodup, hkv, hperm, -⟩ := poolInv_reachable p hp
    have hmaps : (p.transactions.map (·.tx_hash)).Perm
        ((p.transaction_index.map Prod.snd).map (·.tx_hash)) := hperm.map _
    have heq : (p.transaction_index.map Prod.snd).map (·.tx_hash)
        = p.transaction_index.map Prod.fst := by
      rw [List.map_map]
      exact List.map_congr_left (fun kv hkv2 => hkv kv hkv2)
    rw [heq] at hmaps
    exact hmaps.nodup_iff.mpr hnodup
  · intro p hp
    exact (poolInv_reachable p hp).2.2.2
  · intro p tx f hs
    have hchar : (TransactionPool.add_transaction p tx).1.transactions
        = sortByFeeDesc (p.transactions ++ [tx]) := by
      unfold TransactionPool.add_transaction at hs ⊢
      split_ifs at hs ⊢
      simp_all
    rw [hchar]
    exact sortByFeeDesc_filter_fee (p.transactions ++ [tx]) f

theorem C7_pool_admission_order_and_uniqueness_witness :
    (TransactionPool.add_transaction ((mkTransactionPool 10000).add_transaction s4a).1
      s4a).2 = false :=
  (C7_pool_admission_order_and_uniqueness.1
      ((mkTransactionPool 10000).add_transaction s4a).1 s4a
      (by unfold PoolInv; exact ⟨by decide, by decide, by decide, by decide⟩)).mpr
    (Or.inr (by decide))
